import Mathlib

/-!
Verification of the batched tridiagonal Cholesky factorization / solve
(`tridiag_batch_potrf`, `tridiag_batch_potrs` of `gpytorch.utils`) and of
the FFT extension build configuration (`build.py`).

The numeric kernels are not present in the visible sources (only their
test `test/util/test_tridiag.py` and the specification are), so they are
modelled from the spec: matrices are embedded as functions `ℕ → ℕ → ℝ`
together with an explicit dimension `n` (entries outside `[0,n) × [0,n)`
irrelevant / zero), batches as functions from a batch index, and
floating-point arithmetic as exact real arithmetic.
-/

open Finset

namespace TriDiag

/-- `n × n` matrix product of two matrices given as `ℕ`-indexed functions. -/
noncomputable def matMul (n : ℕ) (A B : ℕ → ℕ → ℝ) : ℕ → ℕ → ℝ :=
  fun i j => ∑ m ∈ Finset.range n, A i m * B m j

/-- Matrix transpose. -/
def transpose (A : ℕ → ℕ → ℝ) : ℕ → ℕ → ℝ := fun i j => A j i

/-- Main-diagonal extraction (the spec's `d[0..n-1]`). -/
def diagOf (A : ℕ → ℕ → ℝ) : ℕ → ℝ := fun i => A i i

/-- Sub-diagonal extraction (the spec's `e[0..n-2]`, lower variant). -/
def subOf (A : ℕ → ℕ → ℝ) : ℕ → ℝ := fun i => A (i + 1) i

/-- Super-diagonal extraction (the spec's `e[0..n-2]`, upper variant). -/
def supOf (A : ℕ → ℕ → ℝ) : ℕ → ℝ := fun i => A i (i + 1)

/-- The matrix is symmetric on the `n × n` block. -/
def IsSymmOn (n : ℕ) (A : ℕ → ℕ → ℝ) : Prop :=
  ∀ i j, i < n → j < n → A i j = A j i

/-- The matrix is tridiagonal on the `n × n` block: zero whenever the row
and column indices differ by more than one. -/
def IsTridiagOn (n : ℕ) (A : ℕ → ℕ → ℝ) : Prop :=
  ∀ i j, i < n → j < n → j + 1 < i ∨ i + 1 < j → A i j = 0

/-- Quadratic form `xᵀ A x` restricted to the leading `n × n` block. -/
noncomputable def quadForm (n : ℕ) (A : ℕ → ℕ → ℝ) (x : ℕ → ℝ) : ℝ :=
  ∑ i ∈ Finset.range n, ∑ j ∈ Finset.range n, x i * A i j * x j

/-- Modelled from the spec: positive definiteness of the `n × n` block
(`matrix per batch element symmetric and positive-definite`). -/
def IsPosDefOn (n : ℕ) (A : ℕ → ℕ → ℝ) : Prop :=
  ∀ x : ℕ → ℝ, (∃ i, i < n ∧ x i ≠ 0) → 0 < quadForm n A x

/-- The Cholesky pivots `p 0 = d 0`, `p (i+1) = d (i+1) - e i ^ 2 / p i`. -/
noncomputable def pivot (d e : ℕ → ℝ) : ℕ → ℝ
  | 0 => d 0
  | i + 1 => d (i + 1) - (e i) ^ 2 / pivot d e i

/-- Modelled from the spec: the diagonal of the bidiagonal Cholesky factor,
`L[0][0] = sqrt (d 0)`, `L[i][i] = sqrt (d i - L[i][i-1]^2)`. -/
noncomputable def cholD (d e : ℕ → ℝ) : ℕ → ℝ
  | 0 => Real.sqrt (d 0)
  | i + 1 => Real.sqrt (d (i + 1) - (e i / cholD d e i) ^ 2)

/-- Modelled from the spec: the off-diagonal of the bidiagonal Cholesky
factor, `L[i+1][i] = e i / L[i][i]`. -/
noncomputable def cholE (d e : ℕ → ℝ) (i : ℕ) : ℝ := e i / cholD d e i

/-- Modelled from the spec: the missing `tridiag_batch_potrf` kernel on a
single batch element, lower-triangular variant.  The result is the dense
zero-padded bidiagonal factor. -/
noncomputable def potrfLower (n : ℕ) (A : ℕ → ℕ → ℝ) : ℕ → ℕ → ℝ :=
  fun i j =>
    if i < n ∧ j < n then
      if i = j then cholD (diagOf A) (subOf A) i
      else if j + 1 = i then cholE (diagOf A) (subOf A) j
      else 0
    else 0

/-- Modelled from the spec: the upper-triangular variant, the
transpose-symmetric mirror of the lower recurrence (reads the
super-diagonal, writes diagonal and super-diagonal). -/
noncomputable def potrfUpper (n : ℕ) (A : ℕ → ℕ → ℝ) : ℕ → ℕ → ℝ :=
  fun i j =>
    if i < n ∧ j < n then
      if i = j then cholD (diagOf A) (supOf A) i
      else if i + 1 = j then cholE (diagOf A) (supOf A) i
      else 0
    else 0

/-- Modelled from the spec: `tridiag_batch_potrf(trid, upper)` — the
batched tridiagonal Cholesky factorization, a data-parallel map of the
per-element kernel over the batch axis. -/
noncomputable def tridiag_batch_potrf (trid : ℕ → ℕ → ℕ → ℝ) (n : ℕ)
    (upper : Bool) : ℕ → ℕ → ℕ → ℝ :=
  fun b => if upper then potrfUpper n (trid b) else potrfLower n (trid b)

/-- Modelled from the spec: forward substitution on a lower bidiagonal
factor with diagonal `Ld` and sub-diagonal `Le`:
`y 0 = r 0 / Ld 0`, `y (i+1) = (r (i+1) - Le i * y i) / Ld (i+1)`. -/
noncomputable def fwdSub (Ld Le r : ℕ → ℝ) : ℕ → ℝ
  | 0 => r 0 / Ld 0
  | i + 1 => (r (i + 1) - Le i * fwdSub Ld Le r i) / Ld (i + 1)

/-- Modelled from the spec: backward substitution, indexed from the
bottom: `bwdAux j` is the solution entry at row `n - 1 - j`. -/
noncomputable def bwdAux (Ld Le y : ℕ → ℝ) (n : ℕ) : ℕ → ℝ
  | 0 => y (n - 1) / Ld (n - 1)
  | j + 1 => (y (n - (j + 2)) - Le (n - (j + 2)) * bwdAux Ld Le y n j) / Ld (n - (j + 2))

/-- Backward substitution solving `factorᵗ · x = y` on a lower bidiagonal
factor: `x (n-1) = y (n-1) / Ld (n-1)`,
`x i = (y i - Le i * x (i+1)) / Ld i`. -/
noncomputable def bwdSub (Ld Le y : ℕ → ℝ) (n : ℕ) (i : ℕ) : ℝ :=
  bwdAux Ld Le y n (n - 1 - i)

/-- Modelled from the spec: the missing `tridiag_batch_potrs` kernel on a
single batch element: two triangular solves (forward then backward) using
the bands of the bidiagonal factor; columns of the right-hand side are
independent. -/
noncomputable def potrsOne (n : ℕ) (chol rhs : ℕ → ℕ → ℝ) (upper : Bool) :
    ℕ → ℕ → ℝ :=
  fun i c =>
    if i < n then
      if upper then
        bwdSub (diagOf chol) (supOf chol)
          (fwdSub (diagOf chol) (supOf chol) (fun m => rhs m c)) n i
      else
        bwdSub (diagOf chol) (subOf chol)
          (fwdSub (diagOf chol) (subOf chol) (fun m => rhs m c)) n i
    else 0

/-- Modelled from the spec: `tridiag_batch_potrs(mat, chol, upper)` — the
batched tridiagonal solve, mapped over the batch axis. -/
noncomputable def tridiag_batch_potrs (mat chol : ℕ → ℕ → ℕ → ℝ) (n : ℕ)
    (upper : Bool) : ℕ → ℕ → ℕ → ℝ :=
  fun b => potrsOne n (chol b) (mat b) upper

/-- Dense reference, following the spec's words (`dense Cholesky
factorization of the same (dense-zero-padded) input`): the textbook dense
lower Cholesky entry recurrence,
`L i j = (A i j - ∑ m < j, L i m * L j m) / L j j` below the diagonal and
`L i i = sqrt (A i i - ∑ m < i, (L i m)^2)` on it. -/
noncomputable def denseCholLower (A : ℕ → ℕ → ℝ) (i j : ℕ) : ℝ :=
  if _ : j < i then
    (A i j - ∑ m ∈ (Finset.range j).attach,
        denseCholLower A i m.1 * denseCholLower A j m.1) /
      denseCholLower A j j
  else if _ : j = i then
    Real.sqrt (A i i - ∑ m ∈ (Finset.range i).attach, (denseCholLower A i m.1) ^ 2)
  else 0
  termination_by (i, j)
  decreasing_by
  · exact Prod.Lex.right i (Finset.mem_range.mp m.2)
  · exact Prod.Lex.left _ _ (by omega)
  · exact Prod.Lex.left _ _ (by omega)
  · rename_i hne heq
    exact Prod.Lex.right i (by have := Finset.mem_range.mp m.2; omega)

/-- Dense reference: the textbook dense upper Cholesky entry recurrence
(the column-wise mirror, so that `Uᵀ · U` reconstructs the input). -/
noncomputable def denseCholUpper (A : ℕ → ℕ → ℝ) (i j : ℕ) : ℝ :=
  if _ : i < j then
    (A i j - ∑ m ∈ (Finset.range i).attach,
        denseCholUpper A m.1 i * denseCholUpper A m.1 j) /
      denseCholUpper A i i
  else if _ : i = j then
    Real.sqrt (A i i - ∑ m ∈ (Finset.range i).attach, (denseCholUpper A m.1 i) ^ 2)
  else 0
  termination_by (j, i)
  decreasing_by
  · exact Prod.Lex.left _ _ (by omega)
  · exact Prod.Lex.right j (by have := Finset.mem_range.mp m.2; omega)
  · exact Prod.Lex.left _ _ (by omega)
  · rename_i hne heq
    exact Prod.lex_iff.mpr (Or.inr ⟨heq, Finset.mem_range.mp m.2⟩)

/-- Dense reference, following the spec's words (`a dense triangular-system
solve using that same dense factor`): dense forward substitution on a lower
triangular matrix, `y i = (r i - ∑ m < i, L i m * y m) / L i i`. -/
noncomputable def denseFwd (L : ℕ → ℕ → ℝ) (r : ℕ → ℝ) (i : ℕ) : ℝ :=
  (r i - ∑ m ∈ (Finset.range i).attach, L i m.1 * denseFwd L r m.1) / L i i
  termination_by i
  decreasing_by exact Finset.mem_range.mp m.2

/-- Dense reference: dense backward substitution on the transpose of a
lower triangular matrix, indexed from the bottom (`j` stands for row
`n - 1 - j`): `x i = (y i - ∑ m > i, L m i * x m) / L i i`. -/
noncomputable def denseBwdAux (n : ℕ) (L : ℕ → ℕ → ℝ) (y : ℕ → ℝ) (j : ℕ) : ℝ :=
  (y (n - 1 - j) -
      ∑ t ∈ (Finset.range j).attach,
        L (n - 1 - t.1) (n - 1 - j) * denseBwdAux n L y t.1) /
    L (n - 1 - j) (n - 1 - j)
  termination_by j
  decreasing_by exact Finset.mem_range.mp t.2

/-- Dense reference: the dense two-pass solve (the test's `torch.potrs`
with a lower factor): forward substitution with `L`, then backward
substitution with `Lᵀ`, per column of the right-hand side. -/
noncomputable def densePotrs (n : ℕ) (L rhs : ℕ → ℕ → ℝ) : ℕ → ℕ → ℝ :=
  fun i c => denseBwdAux n L (denseFwd L (fun m => rhs m c)) (n - 1 - i)

/-- Dense reference: the dense two-pass solve with an upper factor
(`torch.potrs` with `upper=True`, solving `Uᵀ · U · x = rhs`): forward
substitution with the lower triangular matrix `Uᵀ`, then backward
substitution with `U`, per column of the right-hand side. -/
noncomputable def densePotrsUpper (n : ℕ) (U rhs : ℕ → ℕ → ℝ) : ℕ → ℕ → ℝ :=
  fun i c =>
    denseBwdAux n (transpose U) (denseFwd (transpose U) (fun m => rhs m c))
      (n - 1 - i)

/-- Floating-point dtype tag of a tensor operand. -/
inductive DType
  | float32
  | float64
  deriving DecidableEq

/-- Modelled from the spec: a batched dense tensor value `B×n×k` with a
dtype tag, the operand shape of the missing `tridiag_batch_potrs`
call-boundary check. -/
structure BatchTensor where
  batch : ℕ
  rows : ℕ
  cols : ℕ
  dtype : DType
  data : ℕ → ℕ → ℕ → ℝ

/-- Modelled from the spec: the call boundary of the missing
`tridiag_batch_potrs` kernel.  A shape/dtype mismatch between the factor
(`B×n×n`) and the right-hand side (`B×n×k`) is `a reportable configuration
error, surfaced immediately and synchronously`; otherwise the whole output
batch is produced. -/
noncomputable def tridiag_batch_potrs_checked (mat chol : BatchTensor)
    (upper : Bool) : Except String BatchTensor :=
  if chol.batch = mat.batch ∧ chol.rows = mat.rows ∧ chol.cols = chol.rows ∧
      chol.dtype = mat.dtype then
    Except.ok
      { batch := mat.batch
        rows := mat.rows
        cols := mat.cols
        dtype := mat.dtype
        data := tridiag_batch_potrs mat.data chol.data mat.rows upper }
  else Except.error ("shape or dtype mismatch between factor and right-hand side")

/-- The elimination test vector witnessing the `k`-th pivot inside the
quadratic form: entry at row `k - m` is `tvAux k m`, built downward from
`tvAux k 0 = 1` at row `k`. -/
noncomputable def tvAux (d e : ℕ → ℝ) (k : ℕ) : ℕ → ℝ
  | 0 => 1
  | m + 1 => -(e (k - (m + 1)) / pivot d e (k - (m + 1))) * tvAux d e k m

/-- The elimination test vector as a vector: `1` at row `k`, the downward
recurrence below it, `0` above it. -/
noncomputable def testVec (d e : ℕ → ℝ) (k : ℕ) : ℕ → ℝ :=
  fun j => if j ≤ k then tvAux d e k (k - j) else 0

/-! Concrete data of the example scenario (`test_tridiag.py`). -/

/-- The explicit lower bidiagonal factor `L` of the test
(`chol` in `test_tridiag.py`). -/
noncomputable def chol4 : ℕ → ℕ → ℝ := fun i j =>
  match i, j with
  | 0, 0 => 1
  | 1, 0 => 2
  | 1, 1 => 1
  | 2, 1 => 1
  | 2, 2 => 2
  | 3, 2 => 2
  | 3, 3 => 3
  | _, _ => 0

/-- The tridiagonal matrix the spec's example sentence describes: main
diagonal `[1, 5, 5, 13]` and off-diagonal `[2, 1, 2]`. -/
noncomputable def tridSpec : ℕ → ℕ → ℝ := fun i j =>
  match i, j with
  | 0, 0 => 1
  | 1, 1 => 5
  | 2, 2 => 5
  | 3, 3 => 13
  | 0, 1 => 2
  | 1, 0 => 2
  | 1, 2 => 1
  | 2, 1 => 1
  | 2, 3 => 2
  | 3, 2 => 2
  | _, _ => 0

/-- The tridiagonal matrix the test actually builds, `chol · cholᵀ`: main
diagonal `[1, 5, 5, 13]` and off-diagonal `[2, 1, 4]`. -/
noncomputable def trid4 : ℕ → ℕ → ℝ := fun i j =>
  match i, j with
  | 0, 0 => 1
  | 1, 1 => 5
  | 2, 2 => 5
  | 3, 3 => 13
  | 0, 1 => 2
  | 1, 0 => 2
  | 1, 2 => 1
  | 2, 1 => 1
  | 2, 3 => 4
  | 3, 2 => 4
  | _, _ => 0

/-- A one-element symmetric positive-definite "matrix" used to witness the
universally quantified theorems. -/
noncomputable def matOne : ℕ → ℕ → ℝ := fun i j => if i = 0 ∧ j = 0 then 2 else 0


end TriDiag

namespace BuildPy

/-- `os.getenv('CUDA_HOME') or '/usr/local/cuda'`: the Python `or` falls
back on the default both when the variable is unset and when it is empty. -/
def cudaHomeOf (env : Option String) : String :=
  match env with
  | some s => if s = "" then ("/usr/local/cuda") else s
  | none => "/usr/local/cuda"

/-- The configuration assembled by `build.py` and handed to
`create_extension`. -/
structure ExtConfig where
  headers : List String
  sources : List String
  defines : List (String × Option String)
  with_cuda : Bool
  libraries : List String
  library_dirs : List String
  deriving DecidableEq

/-- The library search path `build.py` starts from. -/
def baseLibraryDirs : List String :=
  ["/usr/local/lib", "/usr/local/include", "/usr/lib/x86_64-linux-gnu/"]

/-- The module-level configuration logic of `build.py`, as a function of
the environment it reads: `torch.cuda.is_available()`, the `CUDA_HOME`
environment variable, and `os.path.exists`. -/
def buildConfig (cuda_available : Bool) (cuda_home_env : Option String)
    (path_exists : String → Bool) : ExtConfig :=
  let headers := ["gpytorch/csrc/fft.h"]
  let sources := ["gpytorch/csrc/fft.c"]
  let defines : List (String × Option String) := []
  let with_cuda := false
  let libraries := ["fftw3", "fftw3f"]
  let library_dirs := baseLibraryDirs
  if cuda_available then
    let cuda_home := cudaHomeOf cuda_home_env
    let library_dirs := library_dirs ++
      ((["lib", "lib64"].filter fun base_dir =>
          path_exists (cuda_home ++ "/" ++ base_dir)).map
        fun base_dir => cuda_home ++ "/" ++ base_dir)
    { headers := headers ++ ["gpytorch/csrc/fft_cuda.h"]
      sources := sources ++ ["gpytorch/csrc/fft_cuda.c"]
      defines := defines ++ [("WITH_CUDA", none)]
      with_cuda := true
      libraries := libraries ++ ["cufft"]
      library_dirs := library_dirs }
  else
    { headers := headers
      sources := sources
      defines := defines
      with_cuda := with_cuda
      libraries := libraries
      library_dirs := library_dirs }

end BuildPy

namespace TriDiag

/-! Helper lemmas. -/

lemma sum_range_single_of (n a : ℕ) (f : ℕ → ℝ) (ha : a < n)
    (h0 : ∀ m, m < n → m ≠ a → f m = 0) :
    ∑ m ∈ Finset.range n, f m = f a := by
  refine Finset.sum_eq_single_of_mem a (Finset.mem_range.mpr ha) ?_
  intro b hb hba
  exact h0 b (Finset.mem_range.mp hb) hba

lemma sum_range_pair_of (n a : ℕ) (f : ℕ → ℝ) (ha : a + 1 < n)
    (h0 : ∀ m, m < n → m ≠ a → m ≠ a + 1 → f m = 0) :
    ∑ m ∈ Finset.range n, f m = f a + f (a + 1) := by
  have hsub : ({a, a + 1} : Finset ℕ) ⊆ Finset.range n := by
    intro x hx
    rcases Finset.mem_insert.mp hx with h | h
    · exact Finset.mem_range.mpr (by omega)
    · rw [Finset.mem_singleton] at h
      exact Finset.mem_range.mpr (by omega)
  have hz : ∀ x ∈ Finset.range n, x ∉ ({a, a + 1} : Finset ℕ) → f x = 0 := by
    intro x hx hnx
    rw [Finset.mem_insert, Finset.mem_singleton] at hnx
    push_neg at hnx
    exact h0 x (Finset.mem_range.mp hx) hnx.1 hnx.2
  rw [← Finset.sum_subset hsub hz]
  exact Finset.sum_pair (by omega)

lemma cholD_eq_sqrt_pivot (d e : ℕ → ℝ) (n : ℕ)
    (hp : ∀ i, i < n → 0 < pivot d e i) :
    ∀ i, i < n → cholD d e i = Real.sqrt (pivot d e i) := by
  intro i
  induction i with
  | zero => intro _; rfl
  | succ i ih =>
    intro hi
    have hin : i < n := by omega
    have hpi := hp i hin
    rw [cholD, ih hin, div_pow, Real.sq_sqrt hpi.le]
    rfl

lemma cholD_pos (d e : ℕ → ℝ) (n : ℕ)
    (hp : ∀ i, i < n → 0 < pivot d e i) :
    ∀ i, i < n → 0 < cholD d e i := by
  intro i hi
  rw [cholD_eq_sqrt_pivot d e n hp i hi]
  exact Real.sqrt_pos.mpr (hp i hi)

lemma cholD_sq (d e : ℕ → ℝ) (n : ℕ)
    (hp : ∀ i, i < n → 0 < pivot d e i) :
    ∀ i, i < n → cholD d e i ^ 2 = pivot d e i := by
  intro i hi
  rw [cholD_eq_sqrt_pivot d e n hp i hi]
  exact Real.sq_sqrt (hp i hi).le

lemma tvAux_succ_scale (d e : ℕ → ℝ) (k : ℕ) :
    ∀ m, tvAux d e (k + 1) (m + 1) = tvAux d e k m * tvAux d e (k + 1) 1 := by
  intro m
  induction m with
  | zero => rw [tvAux, tvAux, one_mul]
  | succ m ih =>
    have hidx : k + 1 - (m + 1 + 1) = k - (m + 1) := by omega
    calc
      tvAux d e (k + 1) (m + 1 + 1)
          = -(e (k - (m + 1)) / pivot d e (k - (m + 1))) *
              tvAux d e (k + 1) (m + 1) := by rw [tvAux, hidx]
      _ = -(e (k - (m + 1)) / pivot d e (k - (m + 1))) *
              (tvAux d e k m * tvAux d e (k + 1) 1) := by rw [ih]
      _ = (-(e (k - (m + 1)) / pivot d e (k - (m + 1))) * tvAux d e k m) *
              tvAux d e (k + 1) 1 := by ring
      _ = tvAux d e k (m + 1) * tvAux d e (k + 1) 1 := by
            conv_rhs => rw [tvAux]

lemma testVec_self (d e : ℕ → ℝ) (k : ℕ) : testVec d e k k = 1 := by
  simp [testVec, tvAux]

lemma testVec_zero_of_gt (d e : ℕ → ℝ) (k j : ℕ) (h : k < j) :
    testVec d e k j = 0 := by
  simp [testVec]
  omega

lemma testVec_succ_scale (d e : ℕ → ℝ) (k j : ℕ) (h : j ≤ k) :
    testVec d e (k + 1) j = testVec d e k j * tvAux d e (k + 1) 1 := by
  have h1 : j ≤ k + 1 := by omega
  have h2 : k + 1 - j = (k - j) + 1 := by omega
  simp only [testVec, if_pos h1, if_pos h, h2]
  exact tvAux_succ_scale d e k (k - j)

lemma quadForm_truncate (n m : ℕ) (A : ℕ → ℕ → ℝ) (x : ℕ → ℝ)
    (hmn : m ≤ n) (hx : ∀ j, m ≤ j → x j = 0) :
    quadForm n A x = quadForm m A x := by
  unfold quadForm
  have hsub : Finset.range m ⊆ Finset.range n := Finset.range_subset.mpr hmn
  have hout : ∀ j, j ∈ Finset.range n → j ∉ Finset.range m → x j = 0 := by
    intro j _ hj
    exact hx j (le_of_not_lt fun h => hj (Finset.mem_range.mpr h))
  calc
    ∑ i ∈ Finset.range n, ∑ j ∈ Finset.range n, x i * A i j * x j
        = ∑ i ∈ Finset.range m, ∑ j ∈ Finset.range n, x i * A i j * x j := by
          refine (Finset.sum_subset hsub ?_).symm
          intro i hi hmi
          refine Finset.sum_eq_zero fun j _ => ?_
          rw [hout i hi hmi]
          ring
    _ = ∑ i ∈ Finset.range m, ∑ j ∈ Finset.range m, x i * A i j * x j := by
          refine Finset.sum_congr rfl fun i _ => ?_
          refine (Finset.sum_subset hsub ?_).symm
          intro j hj hmj
          rw [hout j hj hmj]
          ring

lemma quadForm_succ (k : ℕ) (A : ℕ → ℕ → ℝ) (x : ℕ → ℝ) :
    quadForm (k + 1) A x =
      quadForm k A x + (∑ i ∈ Finset.range k, x i * A i k * x k) +
        (∑ j ∈ Finset.range k, x k * A k j * x j) + x k * A k k * x k := by
  unfold quadForm
  rw [Finset.sum_range_succ]
  have hinner : ∀ i ∈ Finset.range k,
      (∑ j ∈ Finset.range (k + 1), x i * A i j * x j) =
        (∑ j ∈ Finset.range k, x i * A i j * x j) + x i * A i k * x k := by
    intro i _
    exact Finset.sum_range_succ _ k
  rw [Finset.sum_congr rfl hinner, Finset.sum_add_distrib,
    Finset.sum_range_succ (fun j => x k * A k j * x j) k]
  ring

lemma quadForm_scale_on (k : ℕ) (A : ℕ → ℕ → ℝ) (x v : ℕ → ℝ) (c : ℝ)
    (h : ∀ j, j < k → x j = v j * c) :
    quadForm k A x = c ^ 2 * quadForm k A v := by
  unfold quadForm
  rw [Finset.mul_sum]
  refine Finset.sum_congr rfl fun i hi => ?_
  rw [Finset.mul_sum]
  refine Finset.sum_congr rfl fun j hj => ?_
  rw [h i (Finset.mem_range.mp hi), h j (Finset.mem_range.mp hj)]
  ring

lemma quadForm_testVec (n : ℕ) (A : ℕ → ℕ → ℝ) (hS : IsSymmOn n A)
    (hT : IsTridiagOn n A) :
    ∀ k, k < n → (∀ j, j < k → pivot (diagOf A) (subOf A) j ≠ 0) →
      quadForm (k + 1) A (testVec (diagOf A) (subOf A) k) =
        pivot (diagOf A) (subOf A) k := by
  set d := diagOf A with hd
  set e := subOf A with he
  intro k
  induction k with
  | zero =>
    intro _ _
    unfold quadForm
    rw [Finset.sum_range_one, Finset.sum_range_one, testVec_self]
    simp [pivot, hd, diagOf]
  | succ k ih =>
    intro hk hnz
    have hkn : k < n := by omega
    have hknz : ∀ j, j < k → pivot d e j ≠ 0 := fun j hj => hnz j (by omega)
    have hpk : pivot d e k ≠ 0 := hnz k (by omega)
    set x := testVec d e (k + 1) with hx
    set v := testVec d e k with hv
    set c := tvAux d e (k + 1) 1 with hc
    have hxk1 : x (k + 1) = 1 := testVec_self d e (k + 1)
    have hscale : ∀ j, j < k + 1 → x j = v j * c := by
      intro j hj
      exact testVec_succ_scale d e k j (by omega)
    have hcval : c = -(e k / pivot d e k) := by
      rw [hc, tvAux, tvAux]
      simp
    have hrow : (∑ j ∈ Finset.range (k + 1), x (k + 1) * A (k + 1) j * x j) =
        e k * (v k * c) := by
      rw [sum_range_single_of (k + 1) k _ (by omega) ?_]
      · rw [hxk1, hscale k (by omega), he]
        simp only [subOf]
        ring
      · intro m hm hmk
        have hzero : A (k + 1) m = 0 :=
          hT (k + 1) m hk (by omega) (Or.inl (by omega))
        rw [hzero]
        ring
    have hcol : (∑ i ∈ Finset.range (k + 1), x i * A i (k + 1) * x (k + 1)) =
        e k * (v k * c) := by
      rw [sum_range_single_of (k + 1) k _ (by omega) ?_]
      · have hsymm : A k (k + 1) = A (k + 1) k := hS k (k + 1) hkn hk
        rw [hxk1, hscale k (by omega), hsymm, he]
        simp only [subOf]
        ring
      · intro m hm hmk
        have hzero : A m (k + 1) = 0 :=
          hT m (k + 1) (by omega) hk (Or.inr (by omega))
        rw [hzero]
        ring
    have hquad : quadForm (k + 1) A x = c ^ 2 * pivot d e k := by
      rw [quadForm_scale_on (k + 1) A x v c hscale, ih hkn hknz]
    have hvk : v k = 1 := testVec_self d e k
    rw [quadForm_succ (k + 1) A x, hquad, hrow, hcol, hxk1, hvk]
    have hAkk : A (k + 1) (k + 1) = d (k + 1) := by rw [hd]; rfl
    rw [hAkk, hcval, pivot]
    field_simp
    ring

lemma pivot_pos_of_posDef (n : ℕ) (A : ℕ → ℕ → ℝ) (hS : IsSymmOn n A)
    (hT : IsTridiagOn n A) (hP : IsPosDefOn n A) :
    ∀ k, k < n → 0 < pivot (diagOf A) (subOf A) k := by
  intro k
  induction k using Nat.strong_induction_on with
  | _ k ih =>
    intro hk
    have hnz : ∀ j, j < k → pivot (diagOf A) (subOf A) j ≠ 0 := by
      intro j hj
      exact (ih j hj (by omega)).ne'
    have hq := quadForm_testVec n A hS hT k hk hnz
    have htrunc : quadForm n A (testVec (diagOf A) (subOf A) k) =
        quadForm (k + 1) A (testVec (diagOf A) (subOf A) k) := by
      refine quadForm_truncate n (k + 1) A _ (by omega) ?_
      intro j hj
      exact testVec_zero_of_gt _ _ k j (by omega)
    have hpos : 0 < quadForm n A (testVec (diagOf A) (subOf A) k) := by
      refine hP _ ⟨k, hk, ?_⟩
      rw [testVec_self]
      exact one_ne_zero
    rw [htrunc, hq] at hpos
    exact hpos

lemma potrfLower_diag (n : ℕ) (A : ℕ → ℕ → ℝ) (i : ℕ) (hi : i < n) :
    potrfLower n A i i = cholD (diagOf A) (subOf A) i := by
  simp [potrfLower, hi]

lemma potrfLower_sub (n : ℕ) (A : ℕ → ℕ → ℝ) (i : ℕ) (hi : i + 1 < n) :
    potrfLower n A (i + 1) i = cholE (diagOf A) (subOf A) i := by
  simp [potrfLower]
  omega

lemma potrfLower_zero (n : ℕ) (A : ℕ → ℕ → ℝ) (i j : ℕ)
    (h : i ≠ j) (h2 : j + 1 ≠ i) : potrfLower n A i j = 0 := by
  simp [potrfLower, h, h2]

lemma potrfLower_zero_oob (n : ℕ) (A : ℕ → ℕ → ℝ) (i j : ℕ)
    (h : ¬(i < n ∧ j < n)) : potrfLower n A i j = 0 := by
  simp [potrfLower, h]

lemma potrfUpper_zero (n : ℕ) (A : ℕ → ℕ → ℝ) (i j : ℕ)
    (h : i ≠ j) (h2 : i + 1 ≠ j) : potrfUpper n A i j = 0 := by
  simp [potrfUpper, h, h2]

lemma potrfLower_support (n : ℕ) (A : ℕ → ℕ → ℝ) (i j : ℕ)
    (h : potrfLower n A i j ≠ 0) : (j = i ∨ j + 1 = i) ∧ i < n ∧ j < n := by
  by_cases hb : i < n ∧ j < n
  · refine ⟨?_, hb⟩
    by_contra hc
    push_neg at hc
    exact h (potrfLower_zero n A i j (fun he => hc.1 he.symm) hc.2)
  · exact absurd (potrfLower_zero_oob n A i j hb) h

lemma potrfLower_mul_transpose_le (n : ℕ) (A : ℕ → ℕ → ℝ)
    (hT : IsTridiagOn n A)
    (hp : ∀ i, i < n → 0 < pivot (diagOf A) (subOf A) i) :
    ∀ i j, i < n → j < n → j ≤ i →
      matMul n (potrfLower n A) (transpose (potrfLower n A)) i j = A i j := by
  set d := diagOf A with hd
  set e := subOf A with he
  set L := potrfLower n A with hL
  intro i j hi hj hji
  have hterm : matMul n L (transpose L) i j = ∑ m ∈ Finset.range n, L i m * L j m := rfl
  rw [hterm]
  rcases Nat.lt_or_ge (j + 1) i with hfar | hnear
  · -- far below the diagonal: disjoint supports, and `A i j = 0`
    rw [hT i j hi hj (Or.inl hfar)]
    refine Finset.sum_eq_zero fun m _ => ?_
    by_cases hm : m = i ∨ m + 1 = i
    · have : L j m = 0 := potrfLower_zero n A j m (by omega) (by omega)
      rw [this, mul_zero]
    · push_neg at hm
      have : L i m = 0 := potrfLower_zero n A i m (fun h => hm.1 h.symm) hm.2
      rw [this, zero_mul]
  · rcases Nat.eq_or_lt_of_le hnear with hsub | hdiag
    · -- sub-diagonal entry: `j + 1 = i`
      have hij : i = j + 1 := by omega
      subst hij
      rw [sum_range_single_of n j _ hj ?side]
      case side =>
        intro m hm hmj
        by_cases hmi : m = j + 1 ∨ m + 1 = j + 1
        · have : L j m = 0 := potrfLower_zero n A j m (by omega) (by omega)
          rw [this, mul_zero]
        · push_neg at hmi
          have : L (j + 1) m = 0 :=
            potrfLower_zero n A (j + 1) m (fun h => hmi.1 h.symm) hmi.2
          rw [this, zero_mul]
      rw [hL, potrfLower_sub n A j hi, potrfLower_diag n A j hj, ← hd, ← he,
        cholE, div_mul_cancel₀]
      · rfl
      · exact (cholD_pos d e n hp j hj).ne'
    · -- diagonal entry: `j = i`
      have hij : j = i := by omega
      subst hij
      rcases Nat.eq_zero_or_pos j with h0 | hpos
      · subst h0
        rw [sum_range_single_of n 0 _ hj ?side0]
        case side0 =>
          intro m hm hm0
          have : L 0 m = 0 := potrfLower_zero n A 0 m (fun h => hm0 h.symm) (by omega)
          rw [this, zero_mul]
        rw [hL, potrfLower_diag n A 0 hj, ← hd, ← he]
        have := cholD_sq d e n hp 0 hj
        have hsq : cholD d e 0 * cholD d e 0 = pivot d e 0 := by
          have h2 := cholD_sq d e n hp 0 hj
          nlinarith [h2]
        rw [hsq]
        rfl
      · obtain ⟨t, ht⟩ : ∃ t, j = t + 1 := ⟨j - 1, by omega⟩
        subst ht
        rw [sum_range_pair_of n t _ hj ?sidep]
        case sidep =>
          intro m hm hmt hmt1
          have : L (t + 1) m = 0 :=
            potrfLower_zero n A (t + 1) m (fun h => hmt1 h.symm) (by omega)
          rw [this, zero_mul]
        rw [hL, potrfLower_sub n A t hj, potrfLower_diag n A (t + 1) hj, ← hd, ← he]
        have htn : t < n := by omega
        have hsqd : cholD d e (t + 1) * cholD d e (t + 1) = pivot d e (t + 1) := by
          have h2 := cholD_sq d e n hp (t + 1) hj
          nlinarith [h2]
        have h2 := cholD_sq d e n hp t htn
        have hsqe : cholE d e t * cholE d e t = e t ^ 2 / pivot d e t := by
          rw [cholE, div_mul_div_comm, ← pow_two, ← pow_two, h2]
        rw [hsqe, hsqd, pivot]
        have hfin : e t ^ 2 / pivot d e t +
            (d (t + 1) - e t ^ 2 / pivot d e t) = d (t + 1) := by ring
        rw [hfin]
        rfl

lemma potrfLower_mul_transpose (n : ℕ) (A : ℕ → ℕ → ℝ)
    (hS : IsSymmOn n A) (hT : IsTridiagOn n A)
    (hp : ∀ i, i < n → 0 < pivot (diagOf A) (subOf A) i) :
    ∀ i j, i < n → j < n →
      matMul n (potrfLower n A) (transpose (potrfLower n A)) i j = A i j := by
  intro i j hi hj
  rcases le_or_lt j i with hji | hij
  · exact potrfLower_mul_transpose_le n A hT hp i j hi hj hji
  · have hswap : matMul n (potrfLower n A) (transpose (potrfLower n A)) i j =
        matMul n (potrfLower n A) (transpose (potrfLower n A)) j i := by
      unfold matMul transpose
      exact Finset.sum_congr rfl fun m _ => mul_comm _ _
    rw [hswap, potrfLower_mul_transpose_le n A hT hp j i hj hi (by omega)]
    exact hS j i hj hi

lemma matMul_assoc (n : ℕ) (A B C : ℕ → ℕ → ℝ) :
    matMul n (matMul n A B) C = matMul n A (matMul n B C) := by
  funext i j
  unfold matMul
  calc
    ∑ m ∈ Finset.range n, (∑ l ∈ Finset.range n, A i l * B l m) * C m j
        = ∑ m ∈ Finset.range n, ∑ l ∈ Finset.range n, A i l * (B l m * C m j) := by
          refine Finset.sum_congr rfl fun m _ => ?_
          rw [Finset.sum_mul]
          exact Finset.sum_congr rfl fun l _ => by ring
    _ = ∑ l ∈ Finset.range n, ∑ m ∈ Finset.range n, A i l * (B l m * C m j) :=
          Finset.sum_comm
    _ = ∑ l ∈ Finset.range n, A i l * ∑ m ∈ Finset.range n, B l m * C m j := by
          refine Finset.sum_congr rfl fun l _ => ?_
          rw [Finset.mul_sum]

lemma fwdSub_zero_eq (Ld Le r : ℕ → ℝ) (h : Ld 0 ≠ 0) :
    Ld 0 * fwdSub Ld Le r 0 = r 0 := by
  rw [fwdSub, mul_div_cancel₀ _ h]

lemma fwdSub_succ_eq (Ld Le r : ℕ → ℝ) (i : ℕ) (h : Ld (i + 1) ≠ 0) :
    Le i * fwdSub Ld Le r i + Ld (i + 1) * fwdSub Ld Le r (i + 1) = r (i + 1) := by
  rw [fwdSub, mul_div_cancel₀ _ h]
  ring

lemma bwdSub_last (Ld Le y : ℕ → ℝ) (n : ℕ) (hn : 0 < n) (h : Ld (n - 1) ≠ 0) :
    Ld (n - 1) * bwdSub Ld Le y n (n - 1) = y (n - 1) := by
  have hidx : n - 1 - (n - 1) = 0 := by omega
  rw [bwdSub, hidx, bwdAux, mul_div_cancel₀ _ h]

lemma bwdSub_step (Ld Le y : ℕ → ℝ) (n i : ℕ) (hi : i + 1 < n) (h : Ld i ≠ 0) :
    Ld i * bwdSub Ld Le y n i + Le i * bwdSub Ld Le y n (i + 1) = y i := by
  have h1 : n - 1 - i = (n - 2 - i) + 1 := by omega
  have h2 : n - ((n - 2 - i) + 2) = i := by omega
  have h3 : n - 1 - (i + 1) = n - 2 - i := by omega
  rw [bwdSub, bwdSub, h1, h3, bwdAux, h2, mul_div_cancel₀ _ h]
  ring

/-- The diagonal entries of the lower factor, as used by the solver. -/
lemma potrsOne_lower_eval (n : ℕ) (chol rhs : ℕ → ℕ → ℝ) (i c : ℕ) (hi : i < n) :
    potrsOne n chol rhs false i c =
      bwdSub (diagOf chol) (subOf chol)
        (fwdSub (diagOf chol) (subOf chol) (fun m => rhs m c)) n i := by
  simp [potrsOne, hi]

/-- Forward-pass correctness at the matrix level: `L · y = rhs` per column,
for the bidiagonal lower factor produced by the factorization. -/
lemma potrfLower_mul_fwdSub (n : ℕ) (A : ℕ → ℕ → ℝ)
    (hp : ∀ i, i < n → 0 < pivot (diagOf A) (subOf A) i) (r : ℕ → ℝ) :
    ∀ i, i < n →
      (∑ m ∈ Finset.range n,
          potrfLower n A i m *
            fwdSub (diagOf (potrfLower n A)) (subOf (potrfLower n A)) r m) = r i := by
  set d := diagOf A with hd
  set e := subOf A with he
  set L := potrfLower n A with hL
  have hdiagL : ∀ i, i < n → diagOf L i = cholD d e i := by
    intro i hi
    show L i i = cholD d e i
    rw [hL, potrfLower_diag n A i hi, hd, he]
  have hdne : ∀ i, i < n → diagOf L i ≠ 0 := by
    intro i hi
    rw [hdiagL i hi]
    exact (cholD_pos d e n hp i hi).ne'
  intro i hi
  rcases Nat.eq_zero_or_pos i with h0 | hpos
  · subst h0
    rw [sum_range_single_of n 0 _ hi ?z0]
    case z0 =>
      intro m hm hm0
      have : L 0 m = 0 := potrfLower_zero n A 0 m (fun h => hm0 h.symm) (by omega)
      rw [this, zero_mul]
    have : L 0 0 = diagOf L 0 := rfl
    rw [this]
    exact fwdSub_zero_eq _ _ r (hdne 0 hi)
  · obtain ⟨t, ht⟩ : ∃ t, i = t + 1 := ⟨i - 1, by omega⟩
    subst ht
    rw [sum_range_pair_of n t _ hi ?zp]
    case zp =>
      intro m hm hmt hmt1
      have : L (t + 1) m = 0 :=
        potrfLower_zero n A (t + 1) m (fun h => hmt1 h.symm) (by omega)
      rw [this, zero_mul]
    have hsub : L (t + 1) t = subOf L t := rfl
    have hdg : L (t + 1) (t + 1) = diagOf L (t + 1) := rfl
    rw [hsub, hdg]
    exact fwdSub_succ_eq _ _ r t (hdne (t + 1) hi)

/-- Backward-pass correctness at the matrix level: `Lᵀ · x = y` per column. -/
lemma potrfLower_transpose_mul_bwdSub (n : ℕ) (A : ℕ → ℕ → ℝ)
    (hp : ∀ i, i < n → 0 < pivot (diagOf A) (subOf A) i) (y : ℕ → ℝ) :
    ∀ i, i < n →
      (∑ m ∈ Finset.range n,
          transpose (potrfLower n A) i m *
            bwdSub (diagOf (potrfLower n A)) (subOf (potrfLower n A)) y n m) = y i := by
  set d := diagOf A with hd
  set e := subOf A with he
  set L := potrfLower n A with hL
  have hdne : ∀ i, i < n → diagOf L i ≠ 0 := by
    intro i hi
    show L i i ≠ 0
    rw [hL, potrfLower_diag n A i hi, ← hd, ← he]
    exact (cholD_pos d e n hp i hi).ne'
  intro i hi
  rcases Nat.lt_or_ge (i + 1) n with hlt | hge
  · rw [sum_range_pair_of n i _ hlt ?zp]
    case zp =>
      intro m hm hmi hmi1
      have : transpose L i m = 0 :=
        potrfLower_zero n A m i (fun h => hmi h) (fun h => hmi1 h.symm)
      rw [this, zero_mul]
    have h1 : transpose L i i = diagOf L i := rfl
    have h2 : transpose L i (i + 1) = subOf L i := rfl
    rw [h1, h2]
    exact bwdSub_step _ _ y n i hlt (hdne i hi)
  · have hlast : i = n - 1 := by omega
    rw [sum_range_single_of n i _ hi ?zs]
    case zs =>
      intro m hm hmi
      have : transpose L i m = 0 := by
        refine potrfLower_zero n A m i (fun h => hmi h) ?_
        intro h
        omega
      rw [this, zero_mul]
    have h1 : transpose L i i = diagOf L i := rfl
    rw [h1, hlast]
    exact bwdSub_last _ _ y n (by omega) (by rw [← hlast]; exact hdne i hi)

/-- Full solve correctness for the lower variant:
`(L · Lᵀ) · potrs(rhs, L) = rhs` on the `n × n` block. -/
lemma potrs_lower_solves (n : ℕ) (A rhs : ℕ → ℕ → ℝ)
    (hp : ∀ i, i < n → 0 < pivot (diagOf A) (subOf A) i) :
    ∀ i c, i < n →
      matMul n (matMul n (potrfLower n A) (transpose (potrfLower n A)))
        (potrsOne n (potrfLower n A) rhs false) i c = rhs i c := by
  intro i c hi
  set L := potrfLower n A with hL
  set X := potrsOne n L rhs false with hX
  set Y := fwdSub (diagOf L) (subOf L) (fun m => rhs m c) with hY
  rw [matMul_assoc]
  have hinner : ∀ m, m < n → matMul n (transpose L) X m c = Y m := by
    intro m hm
    have hstep : matMul n (transpose L) X m c =
        ∑ t ∈ Finset.range n,
          transpose L m t * bwdSub (diagOf L) (subOf L) Y n t := by
      refine Finset.sum_congr rfl fun t ht => ?_
      rw [hX, potrsOne_lower_eval n L rhs t c (Finset.mem_range.mp ht), hY]
    rw [hstep, hL]
    exact potrfLower_transpose_mul_bwdSub n A hp Y m hm
  have houter : matMul n L (matMul n (transpose L) X) i c =
      ∑ m ∈ Finset.range n, L i m * matMul n (transpose L) X m c := rfl
  rw [houter,
    Finset.sum_congr rfl fun m hm => by rw [hinner m (Finset.mem_range.mp hm)], hL, hY]
  exact potrfLower_mul_fwdSub n A hp (fun m => rhs m c) i hi

/-- The upper variant is the transpose-symmetric mirror of the lower one:
entry `(i, j)` of the upper factor of `A` is entry `(j, i)` of the lower
factor of `Aᵀ`. -/
lemma potrfUpper_eq_transpose (n : ℕ) (A : ℕ → ℕ → ℝ) (i j : ℕ) :
    potrfUpper n A i j = potrfLower n (transpose A) j i := by
  have hd : diagOf (transpose A) = diagOf A := rfl
  have hs : subOf (transpose A) = supOf A := rfl
  unfold potrfUpper potrfLower
  rw [hd, hs]
  by_cases hb1 : i < n
  · by_cases hb2 : j < n
    · by_cases hij : i = j
      · subst hij
        simp [hb1]
      · simp [hb1, hb2, hij, Ne.symm hij]
    · simp [hb2]
  · simp [hb1]

lemma isSymmOn_transpose (n : ℕ) (A : ℕ → ℕ → ℝ) (h : IsSymmOn n A) :
    IsSymmOn n (transpose A) := fun i j hi hj => h j i hj hi

lemma isTridiagOn_transpose (n : ℕ) (A : ℕ → ℕ → ℝ) (h : IsTridiagOn n A) :
    IsTridiagOn n (transpose A) := fun i j hi hj hband => h j i hj hi hband.symm

lemma isPosDefOn_transpose (n : ℕ) (A : ℕ → ℕ → ℝ) (hS : IsSymmOn n A)
    (h : IsPosDefOn n A) : IsPosDefOn n (transpose A) := by
  intro x hx
  have heq : quadForm n (transpose A) x = quadForm n A x := by
    unfold quadForm transpose
    refine Finset.sum_congr rfl fun i hi => Finset.sum_congr rfl fun j hj => ?_
    rw [hS j i (Finset.mem_range.mp hj) (Finset.mem_range.mp hi)]
  rw [heq]
  exact h x hx

/-- Reconstruction for the upper variant: `Uᵀ · U = A` on the block. -/
lemma potrfUpper_transpose_mul (n : ℕ) (A : ℕ → ℕ → ℝ)
    (hS : IsSymmOn n A) (hT : IsTridiagOn n A)
    (hp : ∀ i, i < n → 0 < pivot (diagOf (transpose A)) (subOf (transpose A)) i) :
    ∀ i j, i < n → j < n →
      matMul n (transpose (potrfUpper n A)) (potrfUpper n A) i j = A i j := by
  intro i j hi hj
  set B := transpose A with hB
  have hU : ∀ a b, potrfUpper n A a b = potrfLower n B b a := fun a b =>
    potrfUpper_eq_transpose n A a b
  have hstep : matMul n (transpose (potrfUpper n A)) (potrfUpper n A) i j =
      matMul n (potrfLower n B) (transpose (potrfLower n B)) i j := by
    unfold matMul transpose
    refine Finset.sum_congr rfl fun m _ => ?_
    rw [hU m i, hU m j]
  rw [hstep,
    potrfLower_mul_transpose n B (isSymmOn_transpose n A hS)
      (isTridiagOn_transpose n A hT) hp i j hi hj]
  exact hS j i hj hi

lemma denseCholLower_above (A : ℕ → ℕ → ℝ) (i j : ℕ) (h : i < j) :
    denseCholLower A i j = 0 := by
  rw [denseCholLower, dif_neg (by omega), dif_neg (by omega)]

lemma denseCholLower_far_zero (n : ℕ) (A : ℕ → ℕ → ℝ) (hT : IsTridiagOn n A) :
    ∀ j i, i < n → j + 1 < i → denseCholLower A i j = 0 := by
  intro j
  induction j using Nat.strong_induction_on with
  | _ j ihj =>
    intro i hi hfar
    rw [denseCholLower, dif_pos (by omega)]
    have hAz : A i j = 0 := hT i j hi (by omega) (Or.inl hfar)
    have hsz : (∑ m ∈ (Finset.range j).attach,
        denseCholLower A i m.1 * denseCholLower A j m.1) = 0 := by
      refine Finset.sum_eq_zero fun m _ => ?_
      have hm := Finset.mem_range.mp m.2
      rw [ihj m.1 hm i hi (by omega), zero_mul]
    rw [hAz, hsz, sub_zero, zero_div]

lemma denseCholLower_sub_eq (n : ℕ) (A : ℕ → ℕ → ℝ) (hT : IsTridiagOn n A)
    (i : ℕ) (hi : i + 1 < n)
    (hdiag : denseCholLower A i i = cholD (diagOf A) (subOf A) i) :
    denseCholLower A (i + 1) i = cholE (diagOf A) (subOf A) i := by
  rw [denseCholLower, dif_pos (by omega)]
  have hsz : (∑ m ∈ (Finset.range i).attach,
      denseCholLower A (i + 1) m.1 * denseCholLower A i m.1) = 0 := by
    refine Finset.sum_eq_zero fun m _ => ?_
    have hm := Finset.mem_range.mp m.2
    rw [denseCholLower_far_zero n A hT m.1 (i + 1) hi (by omega), zero_mul]
  rw [hsz, sub_zero, hdiag]
  rfl

lemma denseCholLower_diag_eq (n : ℕ) (A : ℕ → ℕ → ℝ) (hT : IsTridiagOn n A) :
    ∀ i, i < n → denseCholLower A i i = cholD (diagOf A) (subOf A) i := by
  intro i
  induction i with
  | zero =>
    intro hi
    rw [denseCholLower, dif_neg (by omega), dif_pos rfl]
    simp [cholD, diagOf]
  | succ i ih =>
    intro hi
    rw [denseCholLower, dif_neg (by omega), dif_pos rfl]
    have hsum : (∑ m ∈ (Finset.range (i + 1)).attach,
        (denseCholLower A (i + 1) m.1) ^ 2) =
        (cholE (diagOf A) (subOf A) i) ^ 2 := by
      rw [Finset.sum_attach (Finset.range (i + 1))
        (fun m => (denseCholLower A (i + 1) m) ^ 2)]
      rw [sum_range_single_of (i + 1) i _ (by omega) ?far]
      case far =>
        intro m hm hmi
        rw [denseCholLower_far_zero n A hT m (i + 1) hi (by omega)]
        ring
      rw [denseCholLower_sub_eq n A hT i hi (ih (by omega))]
    rw [hsum]
    rfl

/-- The tridiagonal factorization coincides with the dense lower Cholesky
reference on every entry of the block. -/
lemma potrfLower_eq_denseCholLower (n : ℕ) (A : ℕ → ℕ → ℝ)
    (hT : IsTridiagOn n A) :
    ∀ i j, i < n → j < n → potrfLower n A i j = denseCholLower A i j := by
  intro i j hi hj
  rcases Nat.lt_trichotomy i j with hlt | heq | hgt
  · rw [potrfLower_zero n A i j (by omega) (by omega),
      denseCholLower_above A i j hlt]
  · subst heq
    rw [potrfLower_diag n A i hi, denseCholLower_diag_eq n A hT i hi]
  · rcases Nat.eq_or_lt_of_le hgt with hsub | hfar
    · have hij : i = j + 1 := by omega
      subst hij
      rw [potrfLower_sub n A j hi,
        denseCholLower_sub_eq n A hT j hi (denseCholLower_diag_eq n A hT j hj)]
    · rw [potrfLower_zero n A i j (by omega) (by omega),
        denseCholLower_far_zero n A hT j i hi (by omega)]

/-- The dense upper Cholesky reference is the mirror of the dense lower
reference applied to the transposed input. -/
lemma denseCholUpper_eq_mirror (A : ℕ → ℕ → ℝ) :
    ∀ j i, denseCholUpper A i j = denseCholLower (transpose A) j i := by
  intro j
  induction j using Nat.strong_induction_on with
  | _ j ihj =>
    intro i
    induction i using Nat.strong_induction_on with
    | _ i ihi =>
      rcases Nat.lt_trichotomy i j with hij | hij | hij
      · rw [denseCholUpper, denseCholLower, dif_pos hij, dif_pos hij]
        have hsum : (∑ m ∈ (Finset.range i).attach,
            denseCholUpper A m.1 i * denseCholUpper A m.1 j) =
            (∑ m ∈ (Finset.range i).attach,
              denseCholLower (transpose A) j m.1 * denseCholLower (transpose A) i m.1) := by
          refine Finset.sum_congr rfl fun m _ => ?_
          have hm := Finset.mem_range.mp m.2
          rw [ihj i hij m.1, ihi m.1 hm]
          ring
        rw [hsum, ihj i hij i]
        rfl
      · subst hij
        rw [denseCholUpper, denseCholLower, dif_neg (lt_irrefl i), dif_pos rfl,
          dif_neg (lt_irrefl i), dif_pos rfl]
        have hsum : (∑ m ∈ (Finset.range i).attach,
            (denseCholUpper A m.1 i) ^ 2) =
            (∑ m ∈ (Finset.range i).attach,
              (denseCholLower (transpose A) i m.1) ^ 2) := by
          refine Finset.sum_congr rfl fun m _ => ?_
          have hm := Finset.mem_range.mp m.2
          rw [ihi m.1 hm]
        rw [hsum]
        rfl
      · rw [denseCholUpper, denseCholLower, dif_neg (by omega), dif_neg (by omega),
          dif_neg (by omega), dif_neg (by omega)]

/-- Dense forward substitution agrees with the bidiagonal forward
substitution when the factor is lower bidiagonal on the block. -/
lemma denseFwd_eq_fwdSub (n : ℕ) (L : ℕ → ℕ → ℝ)
    (hband : ∀ i j, i < n → j < n → j ≠ i → j + 1 ≠ i → L i j = 0)
    (r : ℕ → ℝ) :
    ∀ i, i < n → denseFwd L r i = fwdSub (diagOf L) (subOf L) r i := by
  intro i
  induction i with
  | zero =>
    intro hi
    rw [denseFwd]
    simp [fwdSub, diagOf]
  | succ i ih =>
    intro hi
    rw [denseFwd]
    have hsum : (∑ m ∈ (Finset.range (i + 1)).attach, L (i + 1) m.1 * denseFwd L r m.1) =
        subOf L i * fwdSub (diagOf L) (subOf L) r i := by
      rw [Finset.sum_attach (Finset.range (i + 1))
        (fun m => L (i + 1) m * denseFwd L r m)]
      rw [sum_range_single_of (i + 1) i _ (by omega) ?far]
      case far =>
        intro m hm hmi
        rw [hband (i + 1) m hi (by omega) (by omega) (by omega), zero_mul]
      rw [ih (by omega)]
      rfl
    rw [hsum]
    rfl

/-- Dense backward substitution agrees with the bidiagonal backward
substitution when the factor is lower bidiagonal on the block and the two
intermediate vectors agree on the block. -/
lemma denseBwdAux_eq_bwdAux (n : ℕ) (L : ℕ → ℕ → ℝ)
    (hband : ∀ i j, i < n → j < n → j ≠ i → j + 1 ≠ i → L i j = 0)
    (yd y : ℕ → ℝ) (hy : ∀ m, m < n → yd m = y m) :
    ∀ j, j < n → denseBwdAux n L yd j = bwdAux (diagOf L) (subOf L) y n j := by
  intro j
  induction j using Nat.strong_induction_on with
  | _ j ihj =>
    intro hj
    match j with
    | 0 =>
      rw [denseBwdAux]
      simp only [Finset.attach_empty, Finset.range_zero, Finset.sum_empty, sub_zero,
        Nat.sub_zero]
      rw [hy (n - 1) (by omega), bwdAux]
      rfl
    | t + 1 =>
      rw [denseBwdAux]
      have hidx : n - 1 - (t + 1) = n - (t + 2) := by omega
      have hsum : (∑ s ∈ (Finset.range (t + 1)).attach,
          L (n - 1 - s.1) (n - 1 - (t + 1)) * denseBwdAux n L yd s.1) =
          subOf L (n - (t + 2)) * bwdAux (diagOf L) (subOf L) y n t := by
        rw [Finset.sum_attach (Finset.range (t + 1))
          (fun s => L (n - 1 - s) (n - 1 - (t + 1)) * denseBwdAux n L yd s)]
        rw [sum_range_single_of (t + 1) t _ (by omega) ?far]
        case far =>
          intro s hs hst
          rw [hband (n - 1 - s) (n - 1 - (t + 1)) (by omega) (by omega)
            (by omega) (by omega), zero_mul]
        rw [ihj t (by omega) (by omega)]
        have harg : n - 1 - t = n - (t + 2) + 1 := by omega
        have hidx2 : n - 1 - (t + 1) = n - (t + 2) := by omega
        rw [harg, hidx2]
        rfl
      rw [hsum, hy (n - 1 - (t + 1)) (by omega), hidx, bwdAux]
      rfl

/-- The tridiagonal two-pass solver agrees with the dense reference solve
for any factor that is lower bidiagonal on the block. -/
lemma potrsOne_eq_densePotrs (n : ℕ) (L : ℕ → ℕ → ℝ)
    (hband : ∀ i j, i < n → j < n → j ≠ i → j + 1 ≠ i → L i j = 0)
    (rhs : ℕ → ℕ → ℝ) :
    ∀ i c, i < n → potrsOne n L rhs false i c = densePotrs n L rhs i c := by
  intro i c hi
  rw [potrsOne_lower_eval n L rhs i c hi, densePotrs, bwdSub]
  exact (denseBwdAux_eq_bwdAux n L hband
    (denseFwd L (fun m => rhs m c)) (fwdSub (diagOf L) (subOf L) (fun m => rhs m c))
    (fun m hm => denseFwd_eq_fwdSub n L hband (fun t => rhs t c) m hm)
    (n - 1 - i) (by omega)).symm

lemma sqrt_four : Real.sqrt 4 = 2 := by
  rw [show (4 : ℝ) = 2 ^ 2 by norm_num, Real.sqrt_sq (by norm_num)]

lemma sqrt_nine : Real.sqrt 9 = 3 := by
  rw [show (9 : ℝ) = 3 ^ 2 by norm_num, Real.sqrt_sq (by norm_num)]

lemma tridSpec_cholD0 : cholD (diagOf tridSpec) (subOf tridSpec) 0 = 1 := by
  have hstep : cholD (diagOf tridSpec) (subOf tridSpec) 0 = Real.sqrt 1 := rfl
  rw [hstep, Real.sqrt_one]

lemma tridSpec_cholD1 : cholD (diagOf tridSpec) (subOf tridSpec) 1 = 1 := by
  have hstep : cholD (diagOf tridSpec) (subOf tridSpec) 1 =
      Real.sqrt ((5 : ℝ) - ((2 : ℝ) / cholD (diagOf tridSpec) (subOf tridSpec) 0) ^ 2) :=
    rfl
  rw [hstep, tridSpec_cholD0]
  norm_num [Real.sqrt_one]

lemma tridSpec_cholD2 : cholD (diagOf tridSpec) (subOf tridSpec) 2 = 2 := by
  have hstep : cholD (diagOf tridSpec) (subOf tridSpec) 2 =
      Real.sqrt ((5 : ℝ) - ((1 : ℝ) / cholD (diagOf tridSpec) (subOf tridSpec) 1) ^ 2) :=
    rfl
  rw [hstep, tridSpec_cholD1]
  norm_num [sqrt_four]

lemma trid4_cholD0 : cholD (diagOf trid4) (subOf trid4) 0 = 1 := by
  have hstep : cholD (diagOf trid4) (subOf trid4) 0 = Real.sqrt 1 := rfl
  rw [hstep, Real.sqrt_one]

lemma trid4_cholD1 : cholD (diagOf trid4) (subOf trid4) 1 = 1 := by
  have hstep : cholD (diagOf trid4) (subOf trid4) 1 =
      Real.sqrt ((5 : ℝ) - ((2 : ℝ) / cholD (diagOf trid4) (subOf trid4) 0) ^ 2) := rfl
  rw [hstep, trid4_cholD0]
  norm_num [Real.sqrt_one]

lemma trid4_cholD2 : cholD (diagOf trid4) (subOf trid4) 2 = 2 := by
  have hstep : cholD (diagOf trid4) (subOf trid4) 2 =
      Real.sqrt ((5 : ℝ) - ((1 : ℝ) / cholD (diagOf trid4) (subOf trid4) 1) ^ 2) := rfl
  rw [hstep, trid4_cholD1]
  norm_num [sqrt_four]

lemma trid4_cholD3 : cholD (diagOf trid4) (subOf trid4) 3 = 3 := by
  have hstep : cholD (diagOf trid4) (subOf trid4) 3 =
      Real.sqrt ((13 : ℝ) - ((4 : ℝ) / cholD (diagOf trid4) (subOf trid4) 2) ^ 2) := rfl
  rw [hstep, trid4_cholD2]
  norm_num [sqrt_nine]

lemma trid4_cholE0 : cholE (diagOf trid4) (subOf trid4) 0 = 2 := by
  have hstep : cholE (diagOf trid4) (subOf trid4) 0 =
      (2 : ℝ) / cholD (diagOf trid4) (subOf trid4) 0 := rfl
  rw [hstep, trid4_cholD0]
  norm_num

lemma trid4_cholE1 : cholE (diagOf trid4) (subOf trid4) 1 = 1 := by
  have hstep : cholE (diagOf trid4) (subOf trid4) 1 =
      (1 : ℝ) / cholD (diagOf trid4) (subOf trid4) 1 := rfl
  rw [hstep, trid4_cholD1]
  norm_num

lemma trid4_cholE2 : cholE (diagOf trid4) (subOf trid4) 2 = 2 := by
  have hstep : cholE (diagOf trid4) (subOf trid4) 2 =
      (4 : ℝ) / cholD (diagOf trid4) (subOf trid4) 2 := rfl
  rw [hstep, trid4_cholD2]
  norm_num

lemma matOne_symm : IsSymmOn 1 matOne := by
  intro i j hi hj
  interval_cases i
  interval_cases j
  rfl

lemma matOne_tridiag : IsTridiagOn 1 matOne := by
  intro i j hi hj hband
  omega

lemma matOne_posdef : IsPosDefOn 1 matOne := by
  intro x hx
  obtain ⟨i, hi, hxi⟩ := hx
  interval_cases i
  unfold quadForm
  rw [Finset.sum_range_one, Finset.sum_range_one]
  have hm : matOne 0 0 = 2 := rfl
  rw [hm]
  nlinarith [mul_self_pos.mpr hxi]

/-! Claim theorems. -/

/-- C1 counterexample: the spec's example matrix (main diagonal
`[1, 5, 5, 13]`, off-diagonal `[2, 1, 2]`) does not factor back to the
test's `L`: at entry `(3, 2)` the factorization yields `1` while `L` has
`2` there (the off-diagonal of `L · Lᵀ` is `[2, 1, 4]`, not `[2, 1, 2]`). -/
theorem c1_counterexample :
    tridiag_batch_potrf (fun _ => tridSpec) 4 false 0 3 2 ≠ chol4 3 2 := by
  have hval : tridiag_batch_potrf (fun _ => tridSpec) 4 false 0 3 2 =
      cholE (diagOf tridSpec) (subOf tridSpec) 2 := by
    show potrfLower 4 tridSpec 3 2 = _
    rw [show (3 : ℕ) = 2 + 1 from rfl, potrfLower_sub 4 tridSpec 2 (by norm_num)]
  have hE : cholE (diagOf tridSpec) (subOf tridSpec) 2 = 1 := by
    have hstep : cholE (diagOf tridSpec) (subOf tridSpec) 2 =
        (2 : ℝ) / cholD (diagOf tridSpec) (subOf tridSpec) 2 := rfl
    rw [hstep, tridSpec_cholD2]
    norm_num
  have hc : chol4 3 2 = 2 := rfl
  rw [hval, hE, hc]
  norm_num

/-- C1 (amended): with the example's off-diagonal corrected to `[2, 1, 4]`
— the tridiagonal matrix the test actually constructs as `L · Lᵀ` — the
batched factorization with `upper = False` returns exactly `L`, and the
batched solve applied to that factor agrees exactly (exact arithmetic
standing in for the `1e-5` relative tolerance) with the dense reference
triangular solve using `L`, for every `4 × 3` (indeed every) right-hand
side. -/
theorem c1_amended_example :
    (∀ i j, i < 4 → j < 4 →
      tridiag_batch_potrf (fun _ => trid4) 4 false 0 i j = chol4 i j) ∧
    (∀ rhs : ℕ → ℕ → ℕ → ℝ, ∀ i c, i < 4 →
      tridiag_batch_potrs rhs (fun _ => chol4) 4 false 0 i c =
        densePotrs 4 chol4 (rhs 0) i c) := by
  constructor
  · intro i j hi hj
    have hF : tridiag_batch_potrf (fun _ => trid4) 4 false 0 = potrfLower 4 trid4 :=
      rfl
    rw [hF]
    interval_cases i <;> interval_cases j
    · rw [potrfLower_diag 4 trid4 0 (by norm_num), trid4_cholD0]
      rfl
    · rfl
    · rfl
    · rfl
    · rw [show (1 : ℕ) = 0 + 1 from rfl, potrfLower_sub 4 trid4 0 (by norm_num),
        trid4_cholE0]
      rfl
    · rw [potrfLower_diag 4 trid4 1 (by norm_num), trid4_cholD1]
      rfl
    · rfl
    · rfl
    · rfl
    · rw [show (2 : ℕ) = 1 + 1 from rfl, potrfLower_sub 4 trid4 1 (by norm_num),
        trid4_cholE1]
      rfl
    · rw [potrfLower_diag 4 trid4 2 (by norm_num), trid4_cholD2]
      rfl
    · rfl
    · rfl
    · rfl
    · rw [show (3 : ℕ) = 2 + 1 from rfl, potrfLower_sub 4 trid4 2 (by norm_num),
        trid4_cholE2]
      rfl
    · rw [potrfLower_diag 4 trid4 3 (by norm_num), trid4_cholD3]
      rfl
  · intro rhs i c hi
    have hX : tridiag_batch_potrs rhs (fun _ => chol4) 4 false 0 =
        potrsOne 4 chol4 (rhs 0) false := rfl
    rw [hX]
    refine potrsOne_eq_densePotrs 4 chol4 ?_ (rhs 0) i c hi
    intro a b ha hb h1 h2
    interval_cases a <;> interval_cases b <;> first | rfl | omega

/-- C1 witness: the amended example theorem applied at the sub-diagonal
entry `(1, 0)` and at solution entry `(2, 0)` for the all-ones right-hand
side. -/
theorem c1_amended_example_witness :
    tridiag_batch_potrf (fun _ => trid4) 4 false 0 1 0 = chol4 1 0 ∧
    tridiag_batch_potrs (fun _ _ _ => (1 : ℝ)) (fun _ => chol4) 4 false 0 2 0 =
      densePotrs 4 chol4 ((fun _ _ _ => (1 : ℝ)) 0) 2 0 :=
  ⟨c1_amended_example.1 1 0 (by norm_num) (by norm_num),
   c1_amended_example.2 (fun _ _ _ => (1 : ℝ)) 2 0 (by norm_num)⟩

/-- C2: for every batch of symmetric positive-definite tridiagonal
matrices, the factor returned by the batched factorization reconstructs
the input on every batch element: `factor · factorᵀ = input` in the lower
case, `factorᵀ · factor = input` in the upper case. -/
theorem c2_factorization_reconstructs (B n : ℕ) (As : ℕ → ℕ → ℕ → ℝ)
    (hS : ∀ b, b < B → IsSymmOn n (As b))
    (hT : ∀ b, b < B → IsTridiagOn n (As b))
    (hP : ∀ b, b < B → IsPosDefOn n (As b)) :
    ∀ b i j, b < B → i < n → j < n →
      matMul n (tridiag_batch_potrf As n false b)
          (transpose (tridiag_batch_potrf As n false b)) i j = As b i j ∧
      matMul n (transpose (tridiag_batch_potrf As n true b))
          (tridiag_batch_potrf As n true b) i j = As b i j := by
  intro b i j hb hi hj
  have hpl := pivot_pos_of_posDef n (As b) (hS b hb) (hT b hb) (hP b hb)
  constructor
  · have hFl : tridiag_batch_potrf As n false b = potrfLower n (As b) := rfl
    rw [hFl]
    exact potrfLower_mul_transpose n (As b) (hS b hb) (hT b hb) hpl i j hi hj
  · have hFu : tridiag_batch_potrf As n true b = potrfUpper n (As b) := rfl
    rw [hFu]
    refine potrfUpper_transpose_mul n (As b) (hS b hb) (hT b hb) ?_ i j hi hj
    exact pivot_pos_of_posDef n (transpose (As b))
      (isSymmOn_transpose n (As b) (hS b hb))
      (isTridiagOn_transpose n (As b) (hT b hb))
      (isPosDefOn_transpose n (As b) (hS b hb) (hP b hb))

/-- C2 witness: reconstruction on a concrete one-element batch of the
`1 × 1` positive matrix `[[2]]`. -/
theorem c2_factorization_reconstructs_witness :
    matMul 1 (tridiag_batch_potrf (fun _ => matOne) 1 false 0)
        (transpose (tridiag_batch_potrf (fun _ => matOne) 1 false 0)) 0 0 =
      matOne 0 0 ∧
    matMul 1 (transpose (tridiag_batch_potrf (fun _ => matOne) 1 true 0))
        (tridiag_batch_potrf (fun _ => matOne) 1 true 0) 0 0 = matOne 0 0 :=
  c2_factorization_reconstructs 1 1 (fun _ => matOne)
    (fun _ _ => matOne_symm) (fun _ _ => matOne_tridiag)
    (fun _ _ => matOne_posdef) 0 0 0 (by norm_num) (by norm_num) (by norm_num)

/-- C3: for every factor produced by the batched factorization of a
symmetric positive-definite tridiagonal batch and every compatible
right-hand side batch (`B×n×k` with `k ≥ 1`), the solve output `x`
satisfies `(factor · factorᵀ) · x = rhs` on every batch element (lower
case). -/
theorem c3_solve_correct (B n k : ℕ) (As rhs : ℕ → ℕ → ℕ → ℝ) (hk : 1 ≤ k)
    (hS : ∀ b, b < B → IsSymmOn n (As b))
    (hT : ∀ b, b < B → IsTridiagOn n (As b))
    (hP : ∀ b, b < B → IsPosDefOn n (As b)) :
    ∀ b i c, b < B → i < n → c < k →
      matMul n
        (matMul n (tridiag_batch_potrf As n false b)
          (transpose (tridiag_batch_potrf As n false b)))
        (tridiag_batch_potrs rhs (tridiag_batch_potrf As n false) n false b) i c =
        rhs b i c := by
  intro b i c hb hi hc
  have hpl := pivot_pos_of_posDef n (As b) (hS b hb) (hT b hb) (hP b hb)
  have hFl : tridiag_batch_potrf As n false b = potrfLower n (As b) := rfl
  have hXl : tridiag_batch_potrs rhs (tridiag_batch_potrf As n false) n false b =
      potrsOne n (potrfLower n (As b)) (rhs b) false := rfl
  rw [hFl, hXl]
  exact potrs_lower_solves n (As b) (rhs b) hpl i c hi

/-- C3 witness: the solve property on the `1 × 1` batch with the all-ones
right-hand side of one column. -/
theorem c3_solve_correct_witness :
    matMul 1
      (matMul 1 (tridiag_batch_potrf (fun _ => matOne) 1 false 0)
        (transpose (tridiag_batch_potrf (fun _ => matOne) 1 false 0)))
      (tridiag_batch_potrs (fun _ _ _ => (1 : ℝ))
        (tridiag_batch_potrf (fun _ => matOne) 1 false) 1 false 0) 0 0 = 1 :=
  c3_solve_correct 1 1 1 (fun _ => matOne) (fun _ _ _ => (1 : ℝ)) (by norm_num)
    (fun _ _ => matOne_symm) (fun _ _ => matOne_tridiag)
    (fun _ _ => matOne_posdef) 0 0 0 (by norm_num) (by norm_num) (by norm_num)

/-- C4: on every batch element the lower factor's entries satisfy the
forward recurrence `L[0][0] = √(d 0)`,
`L[i][i-1] = e (i-1) / L[i-1][i-1]`,
`L[i][i] = √(d i - L[i][i-1]²)` for `1 ≤ i < n`, where `d`/`e` are the
main/sub diagonal of the batch element; and the upper case is the
transpose-symmetric mirror: the upper factor of a batch element is the
transpose of the lower factor of the transposed element. -/
theorem c4_recurrence (B n : ℕ) (As : ℕ → ℕ → ℕ → ℝ) (hn : 0 < n) :
    ∀ b, b < B →
      tridiag_batch_potrf As n false b 0 0 = Real.sqrt (diagOf (As b) 0) ∧
      (∀ i, 1 ≤ i → i < n →
        tridiag_batch_potrf As n false b i (i - 1) =
          subOf (As b) (i - 1) /
            tridiag_batch_potrf As n false b (i - 1) (i - 1) ∧
        tridiag_batch_potrf As n false b i i =
          Real.sqrt (diagOf (As b) i -
            (tridiag_batch_potrf As n false b i (i - 1)) ^ 2)) ∧
      (∀ i j, tridiag_batch_potrf As n true b i j =
        transpose (tridiag_batch_potrf (fun t => transpose (As t)) n false b) i j) := by
  intro b hb
  have hFl : tridiag_batch_potrf As n false b = potrfLower n (As b) := rfl
  refine ⟨?_, ?_, ?_⟩
  · rw [hFl, potrfLower_diag n (As b) 0 hn]
    rfl
  · intro i h1 hi
    obtain ⟨t, rfl⟩ : ∃ t, i = t + 1 := ⟨i - 1, by omega⟩
    simp only [Nat.add_sub_cancel]
    constructor
    · rw [hFl, potrfLower_sub n (As b) t hi, potrfLower_diag n (As b) t (by omega)]
      rfl
    · rw [hFl, potrfLower_diag n (As b) (t + 1) hi, potrfLower_sub n (As b) t hi]
      rfl
  · intro i j
    have hFu : tridiag_batch_potrf As n true b = potrfUpper n (As b) := rfl
    have hFt : transpose (tridiag_batch_potrf (fun t => transpose (As t)) n false b) i j =
        potrfLower n (transpose (As b)) j i := rfl
    rw [hFu, hFt]
    exact potrfUpper_eq_transpose n (As b) i j

/-- C4 witness: the recurrence theorem applied to the one-element `1 × 1`
batch, read at the top-left entry. -/
theorem c4_recurrence_witness :
    tridiag_batch_potrf (fun _ => matOne) 1 false 0 0 0 =
      Real.sqrt (diagOf matOne 0) :=
  (c4_recurrence 1 1 (fun _ => matOne) (by norm_num) 0 (by norm_num)).1

/-- C5: on every batch element and column, the solve is the claimed two
substitution passes: the forward pass `y` satisfies
`y 0 = rhs 0 / L[0][0]` and
`y (i+1) = (rhs (i+1) - L[i+1][i] · y i) / L[i+1][i+1]`, and the returned
solution `x` satisfies `x (n-1) = y (n-1) / L[n-1][n-1]` and
`x i = (y i - L[i+1][i] · x (i+1)) / L[i][i]` for `i + 1 < n`. -/
theorem c5_two_substitutions (B n : ℕ) (mat chol : ℕ → ℕ → ℕ → ℝ) (hn : 0 < n) :
    ∀ b c, b < B →
      fwdSub (diagOf (chol b)) (subOf (chol b)) (fun m => mat b m c) 0 =
        mat b 0 c / chol b 0 0 ∧
      (∀ i,
        fwdSub (diagOf (chol b)) (subOf (chol b)) (fun m => mat b m c) (i + 1) =
          (mat b (i + 1) c - chol b (i + 1) i *
            fwdSub (diagOf (chol b)) (subOf (chol b)) (fun m => mat b m c) i) /
            chol b (i + 1) (i + 1)) ∧
      tridiag_batch_potrs mat chol n false b (n - 1) c =
        fwdSub (diagOf (chol b)) (subOf (chol b)) (fun m => mat b m c) (n - 1) /
          chol b (n - 1) (n - 1) ∧
      (∀ i, i + 1 < n →
        tridiag_batch_potrs mat chol n false b i c =
          (fwdSub (diagOf (chol b)) (subOf (chol b)) (fun m => mat b m c) i -
            chol b (i + 1) i * tridiag_batch_potrs mat chol n false b (i + 1) c) /
            chol b i i) := by
  intro b c hb
  refine ⟨rfl, fun i => rfl, ?_, ?_⟩
  · have hX : tridiag_batch_potrs mat chol n false b (n - 1) c =
        bwdSub (diagOf (chol b)) (subOf (chol b))
          (fwdSub (diagOf (chol b)) (subOf (chol b)) (fun m => mat b m c)) n
          (n - 1) := by
      show potrsOne n (chol b) (mat b) false (n - 1) c = _
      rw [potrsOne_lower_eval n (chol b) (mat b) (n - 1) c (by omega)]
    rw [hX, bwdSub, show n - 1 - (n - 1) = 0 from by omega, bwdAux]
    rfl
  · intro i hilt
    have h1 : n - 1 - i = (n - 2 - i) + 1 := by omega
    have h2 : n - ((n - 2 - i) + 2) = i := by omega
    have h3 : n - 1 - (i + 1) = n - 2 - i := by omega
    have hXi : tridiag_batch_potrs mat chol n false b i c =
        bwdSub (diagOf (chol b)) (subOf (chol b))
          (fwdSub (diagOf (chol b)) (subOf (chol b)) (fun m => mat b m c)) n i := by
      show potrsOne n (chol b) (mat b) false i c = _
      rw [potrsOne_lower_eval n (chol b) (mat b) i c (by omega)]
    have hXi1 : tridiag_batch_potrs mat chol n false b (i + 1) c =
        bwdAux (diagOf (chol b)) (subOf (chol b))
          (fwdSub (diagOf (chol b)) (subOf (chol b)) (fun m => mat b m c)) n
          (n - 2 - i) := by
      show potrsOne n (chol b) (mat b) false (i + 1) c = _
      rw [potrsOne_lower_eval n (chol b) (mat b) (i + 1) c (by omega), bwdSub, h3]
    rw [hXi, bwdSub, h1, bwdAux, h2, hXi1]
    rfl

/-- C5 witness: the two-pass theorem applied to the one-element `1 × 1`
batch with the all-ones right-hand side, first conjunct. -/
theorem c5_two_substitutions_witness :
    fwdSub (diagOf matOne) (subOf matOne) (fun _ => (1 : ℝ)) 0 =
      1 / matOne 0 0 :=
  (c5_two_substitutions 1 1 (fun _ _ _ => (1 : ℝ)) (fun _ => matOne)
    (by norm_num) 0 0 (by norm_num)).1

/-- C6: the factorization output equals the dense Cholesky reference of
the same dense zero-padded input, for both triangular variants, and the
solve output equals the dense reference triangular solve using that same
dense factor, for both variants, on every batch element and block entry. -/
theorem c6_dense_reference_equivalence (B n : ℕ) (As rhs : ℕ → ℕ → ℕ → ℝ)
    (hS : ∀ b, b < B → IsSymmOn n (As b))
    (hT : ∀ b, b < B → IsTridiagOn n (As b))
    (hP : ∀ b, b < B → IsPosDefOn n (As b)) :
    ∀ b i j, b < B → i < n → j < n →
      tridiag_batch_potrf As n false b i j = denseCholLower (As b) i j ∧
      tridiag_batch_potrf As n true b i j = denseCholUpper (As b) i j ∧
      (∀ c, tridiag_batch_potrs rhs (tridiag_batch_potrf As n false) n false b i c =
        densePotrs n (tridiag_batch_potrf As n false b) (rhs b) i c) ∧
      (∀ c, tridiag_batch_potrs rhs (tridiag_batch_potrf As n true) n true b i c =
        densePotrsUpper n (tridiag_batch_potrf As n true b) (rhs b) i c) := by
  intro b i j hb hi hj
  refine ⟨?_, ?_, ?_, ?_⟩
  · show potrfLower n (As b) i j = _
    exact potrfLower_eq_denseCholLower n (As b) (hT b hb) i j hi hj
  · show potrfUpper n (As b) i j = _
    rw [potrfUpper_eq_transpose n (As b) i j, denseCholUpper_eq_mirror (As b) j i]
    exact potrfLower_eq_denseCholLower n (transpose (As b))
      (isTridiagOn_transpose n (As b) (hT b hb)) j i hj hi
  · intro c
    show potrsOne n (potrfLower n (As b)) (rhs b) false i c =
      densePotrs n (potrfLower n (As b)) (rhs b) i c
    refine potrsOne_eq_densePotrs n (potrfLower n (As b)) ?_ (rhs b) i c hi
    intro a b2 _ _ h1 h2
    exact potrfLower_zero n (As b) a b2 (Ne.symm h1) h2
  · intro c
    have hup : tridiag_batch_potrs rhs (tridiag_batch_potrf As n true) n true b i c =
        potrsOne n (transpose (potrfUpper n (As b))) (rhs b) false i c := rfl
    have hdn : densePotrsUpper n (tridiag_batch_potrf As n true b) (rhs b) i c =
        densePotrs n (transpose (potrfUpper n (As b))) (rhs b) i c := rfl
    rw [hup, hdn]
    refine potrsOne_eq_densePotrs n (transpose (potrfUpper n (As b))) ?_ (rhs b) i c hi
    intro a b2 _ _ h1 h2
    show potrfUpper n (As b) b2 a = 0
    exact potrfUpper_zero n (As b) b2 a h1 h2

/-- C6 witness: the dense-reference equivalence on the one-element `1 × 1`
batch, read at the top-left entry. -/
theorem c6_dense_reference_equivalence_witness :
    tridiag_batch_potrf (fun _ => matOne) 1 false 0 0 0 =
      denseCholLower matOne 0 0 :=
  (c6_dense_reference_equivalence 1 1 (fun _ => matOne) (fun _ _ _ => (1 : ℝ))
    (fun _ _ => matOne_symm) (fun _ _ => matOne_tridiag)
    (fun _ _ => matOne_posdef) 0 0 0 (by norm_num) (by norm_num) (by norm_num)).1

/-- C7: on every batch element and input, the produced factor has exactly
zero entries outside the main diagonal and the single adjacent
off-diagonal: the sub-diagonal in the lower case, the super-diagonal in
the upper case. -/
theorem c7_bidiagonal_structure (B n : ℕ) (As : ℕ → ℕ → ℕ → ℝ) :
    ∀ b i j, b < B → i < n → j < n → i ≠ j →
      (j + 1 ≠ i → tridiag_batch_potrf As n false b i j = 0) ∧
      (i + 1 ≠ j → tridiag_batch_potrf As n true b i j = 0) := by
  intro b i j hb hi hj hij
  constructor
  · intro h2
    exact potrfLower_zero n (As b) i j hij h2
  · intro h2
    show potrfUpper n (As b) i j = 0
    simp [potrfUpper, hij, h2]

/-- C7 witness: the structure theorem at the two off-band corners of a
`2 × 2` instance. -/
theorem c7_bidiagonal_structure_witness :
    tridiag_batch_potrf (fun _ => matOne) 2 false 0 0 1 = 0 ∧
    tridiag_batch_potrf (fun _ => matOne) 2 true 0 1 0 = 0 :=
  ⟨(c7_bidiagonal_structure 1 2 (fun _ => matOne) 0 0 1 (by norm_num)
      (by norm_num) (by norm_num) (by norm_num)).1 (by norm_num),
   (c7_bidiagonal_structure 1 2 (fun _ => matOne) 0 1 0 (by norm_num)
      (by norm_num) (by norm_num) (by norm_num)).2 (by norm_num)⟩

/-- C8: both batched kernels are data-parallel maps over the batch axis:
reindexing the batch by any function of batch indices (in particular any
permutation, or a duplication) reindexes the outputs identically, and
equal batch elements yield equal outputs — no cross-batch leakage. -/
theorem c8_batch_independence (n : ℕ) (upper : Bool)
    (As mat chol : ℕ → ℕ → ℕ → ℝ) (σ : ℕ → ℕ) :
    (∀ b, tridiag_batch_potrf (fun t => As (σ t)) n upper b =
      tridiag_batch_potrf As n upper (σ b)) ∧
    (∀ b, tridiag_batch_potrs (fun t => mat (σ t)) (fun t => chol (σ t)) n upper b =
      tridiag_batch_potrs mat chol n upper (σ b)) ∧
    (∀ b b2, As b = As b2 →
      tridiag_batch_potrf As n upper b = tridiag_batch_potrf As n upper b2) ∧
    (∀ b b2, mat b = mat b2 → chol b = chol b2 →
      tridiag_batch_potrs mat chol n upper b =
        tridiag_batch_potrs mat chol n upper b2) := by
  refine ⟨fun b => rfl, fun b => rfl, ?_, ?_⟩
  · intro b b2 h
    show (if upper then potrfUpper n (As b) else potrfLower n (As b)) =
      (if upper then potrfUpper n (As b2) else potrfLower n (As b2))
    rw [h]
  · intro b b2 h1 h2
    show potrsOne n (chol b) (mat b) upper = potrsOne n (chol b2) (mat b2) upper
    rw [h1, h2]

/-- C8 witness: duplicated batch elements give identical outputs. -/
theorem c8_batch_independence_witness :
    tridiag_batch_potrf (fun _ => matOne) 1 false 0 =
      tridiag_batch_potrf (fun _ => matOne) 1 false 1 :=
  (c8_batch_independence 1 false (fun _ => matOne) (fun _ _ _ => (1 : ℝ))
    (fun _ => matOne) id).2.2.1 0 1 rfl

/-- C9: a shape or dtype mismatch between the factor and the right-hand
side (batch size, `n`, `k`/squareness, or dtype) makes the checked solve
call fail synchronously with a reported configuration error; no output
batch is produced. -/
theorem c9_mismatch_errors (mat chol : BatchTensor) (upper : Bool)
    (h : ¬(chol.batch = mat.batch ∧ chol.rows = mat.rows ∧
        chol.cols = chol.rows ∧ chol.dtype = mat.dtype)) :
    tridiag_batch_potrs_checked mat chol upper =
      Except.error ("shape or dtype mismatch between factor and right-hand side") := by
  rw [tridiag_batch_potrs_checked, if_neg h]

/-- C9 witness: a factor whose batch size disagrees with the right-hand
side is rejected. -/
theorem c9_mismatch_errors_witness :
    tridiag_batch_potrs_checked
      { batch := 1, rows := 4, cols := 3, dtype := DType.float32,
        data := fun _ _ _ => 0 }
      { batch := 2, rows := 4, cols := 4, dtype := DType.float32,
        data := fun _ _ _ => 0 }
      false =
      Except.error ("shape or dtype mismatch between factor and right-hand side") :=
  c9_mismatch_errors
    { batch := 1, rows := 4, cols := 3, dtype := DType.float32,
      data := fun _ _ _ => 0 }
    { batch := 2, rows := 4, cols := 4, dtype := DType.float32,
      data := fun _ _ _ => 0 }
    false (by simp)

end TriDiag

namespace BuildPy

/-- C10: the extension build configuration depends only on CUDA
availability.  Without CUDA, exactly `gpytorch/csrc/fft.c` with header
`gpytorch/csrc/fft.h` is compiled, linking exactly `fftw3` and `fftw3f`
with no defines.  With CUDA, `fft_cuda.c`/`fft_cuda.h`, the `WITH_CUDA`
define and `cufft` are added, and `CUDA_HOME/lib` and `CUDA_HOME/lib64`
(`CUDA_HOME` defaulting to `/usr/local/cuda` when the variable is unset)
are appended to the library search path exactly when they exist. -/
theorem c10_build_config (env : Option String) (pex : String → Bool) :
    buildConfig false env pex =
      { headers := ["gpytorch/csrc/fft.h"]
        sources := ["gpytorch/csrc/fft.c"]
        defines := []
        with_cuda := false
        libraries := ["fftw3", "fftw3f"]
        library_dirs := baseLibraryDirs } ∧
    (buildConfig true env pex).headers =
      ["gpytorch/csrc/fft.h", "gpytorch/csrc/fft_cuda.h"] ∧
    (buildConfig true env pex).sources =
      ["gpytorch/csrc/fft.c", "gpytorch/csrc/fft_cuda.c"] ∧
    (buildConfig true env pex).defines = [("WITH_CUDA", none)] ∧
    (buildConfig true env pex).libraries = ["fftw3", "fftw3f", "cufft"] ∧
    (buildConfig true env pex).with_cuda = true ∧
    (buildConfig true env pex).library_dirs =
      baseLibraryDirs ++
        ((["lib", "lib64"].filter fun base_dir =>
            pex (cudaHomeOf env ++ "/" ++ base_dir)).map
          fun base_dir => cudaHomeOf env ++ "/" ++ base_dir) ∧
    cudaHomeOf none = "/usr/local/cuda" :=
  ⟨rfl, rfl, rfl, rfl, rfl, rfl, rfl, rfl⟩

end BuildPy
